import Mathlib

/-!
# gojobs: a verification development for `jobs.go`

A shallow embedding of the job scraper in `src/jobs.go`.

Modelling conventions.
* A Go `string` is modelled by a Lean `String`, handled through its list of
  Unicode code points (`String.data`); the program only ever handles text
  produced by the HTML parser.
* A Go `int` is the 64-bit two's complement integer of the usual platforms:
  an `Int` in the range `minInt .. maxInt`, additions being wrapped by `wrapInt`.
* The standard library functions the program calls (`strings.Fields`,
  `strings.TrimSpace`, `strings.Join`, `strings.Replace`, `strconv.Atoi`,
  `regexp.FindAllString` for the one pattern used, `fmt.Sprintf` for the
  formats used) are transcribed from the Go standard library.
* `log.Fatal` and a run-time panic are explicit outcomes (`Outcome`).
-/

namespace GoJobs

/-! ## The Go standard library, as far as the program uses it -/

/-- Go `unicode.IsSpace`: in Latin-1 the characters tab, line feed, vertical
tab, form feed, carriage return, space, U+0085 and U+00A0; beyond Latin-1 the
`White_Space` table. -/
def isSpace (r : Char) : Bool :=
  let n := r.toNat
  if n ≤ 0xFF then
    n == 0x09 || n == 0x0A || n == 0x0B || n == 0x0C || n == 0x0D || n == 0x20
      || n == 0x85 || n == 0xA0
  else
    n == 0x1680 || (0x2000 ≤ n && n ≤ 0x200A) || n == 0x2028 || n == 0x2029
      || n == 0x202F || n == 0x205F || n == 0x3000

/-- The scanning loop shared by `strings.Fields` and by `FindAllString` on a
one-or-more character class: `cur` is the run being collected (empty when the
scan is between runs), a separator character closes the current run. -/
def splitRuns (sep : Char → Bool) : List Char → List Char → List (List Char)
  | cur, [] => if cur = [] then [] else [cur]
  | cur, c :: cs =>
    if sep c then
      if cur = [] then splitRuns sep [] cs else cur :: splitRuns sep [] cs
    else splitRuns sep (cur ++ [c]) cs

/-- Go `strings.Fields`: the maximal runs of non-space characters. -/
def stringsFields (s : List Char) : List (List Char) :=
  splitRuns isSpace [] s

/-- Go `strings.TrimSpace`: leading and trailing white space removed. -/
def stringsTrimSpace (s : List Char) : List Char :=
  ((s.dropWhile isSpace).reverse.dropWhile isSpace).reverse

/-- Go `strings.Join`. -/
def stringsJoin : List (List Char) → List Char → List Char
  | [], _ => []
  | [e], _ => e
  | e :: es, sep => e ++ sep ++ stringsJoin es sep

/-- Go `strings.Replace(s, ",", "", -1)`: every comma removed. -/
def removeCommas (s : List Char) : List Char :=
  s.filter (fun c => c != ',')

/-! ## `cleanString` -/

/-- Function `cleanString` of `jobs.go`:
`strings.Join(strings.Fields(strings.TrimSpace(str)), " ")`. -/
def cleanString (str : String) : String :=
  ⟨stringsJoin (stringsFields (stringsTrimSpace str.data)) [' ']⟩

/-- Words joined by the given separators: `weave w₀ [(s₁, w₁), (s₂, w₂)]` is
`w₀ ++ s₁ ++ w₁ ++ s₂ ++ w₂`; used to describe a string by its words and the
runs of white space between them. -/
def weave (w₀ : List Char) : List (List Char × List Char) → List Char
  | [] => w₀
  | (sp, w) :: rest => w₀ ++ sp ++ weave w rest

/-! ## Outcomes, integers and `strconv.Atoi` -/

/-- How a call ends: it returns a value, the process is terminated by
`log.Fatal`, or the goroutine panics at run time. -/
inductive Outcome (α : Type) where
  | ok : α → Outcome α
  | fatal : Outcome α
  | panic : Outcome α
  deriving DecidableEq

/-- Sequencing of outcomes: a fatal exit or a panic ends the computation. -/
def Outcome.bind {α β : Type} : Outcome α → (α → Outcome β) → Outcome β
  | .ok a, f => f a
  | .fatal, _ => .fatal
  | .panic, _ => .panic

/-- Largest value of a Go `int` (64 bits): `1<<63 - 1`. -/
def maxInt : Int := 9223372036854775807

/-- Smallest value of a Go `int` (64 bits): `-1<<63`. -/
def minInt : Int := -9223372036854775808

/-- Largest `uint64`. -/
def maxUint64 : Nat := 18446744073709551615

/-- Two's complement wrap-around of a 64-bit signed integer. -/
def wrapInt (x : Int) : Int :=
  (x + 9223372036854775808) % 18446744073709551616 - 9223372036854775808

/-- The errors of package `strconv`. -/
inductive NumErr where
  | errSyntax
  | errRange
  deriving DecidableEq

/-- A decimal digit `'0'..'9'`. -/
def isDigit (c : Char) : Bool :=
  48 ≤ c.toNat && c.toNat ≤ 57

/-- Value of a decimal digit: `ch - '0'`. -/
def digitOf (c : Char) : Nat :=
  c.toNat - 48

/-- Go `len(s)`: the number of bytes of the UTF-8 encoding. -/
def byteLen (s : List Char) : Nat :=
  (s.map Char.utf8Size).sum

/-- Digit loop of the fast path of `strconv.Atoi`:
`ch -= '0'; if ch > 9 { return 0, syntaxError }; n = n*10 + int(ch)`. -/
def atoiFastLoop : List Char → Int → Except NumErr Int
  | [], n => .ok n
  | c :: cs, n =>
    if isDigit c then atoiFastLoop cs (n * 10 + (digitOf c : Int))
    else .error .errSyntax

/-- Digit loop of `strconv.ParseUint(s, 10, 64)`; the cutoff is
`maxUint64/10 + 1`. -/
def parseUintLoop : List Char → Nat → Except NumErr Nat
  | [], n => .ok n
  | c :: cs, n =>
    if !isDigit c then .error .errSyntax
    else if n ≥ maxUint64 / 10 + 1 then .error .errRange
    else if n * 10 + digitOf c > maxUint64 then .error .errRange
    else parseUintLoop cs (n * 10 + digitOf c)

/-- Go `strconv.ParseUint(s, 10, 64)`: the value with the error, the value
being `maxUint64` on a range error and `0` on a syntax error. -/
def parseUint (s : List Char) : Nat × Option NumErr :=
  if s = [] then (0, some .errSyntax)
  else
    match parseUintLoop s 0 with
    | .ok n => (n, none)
    | .error .errRange => (maxUint64, some .errRange)
    | .error .errSyntax => (0, some .errSyntax)

/-- Go `strconv.ParseInt(s, 10, 0)`. -/
def parseInt (s : List Char) : Int × Option NumErr :=
  match s with
  | [] => (0, some .errSyntax)
  | c :: rest =>
    let neg := c == '-'
    let body := if c == '+' || c == '-' then rest else s
    let (un, err) := parseUint body
    if err == some .errSyntax then (0, some .errSyntax)
    else if !neg && un ≥ 9223372036854775808 then (maxInt, some .errRange)
    else if neg && un > 9223372036854775808 then (minInt, some .errRange)
    else (if neg then -(un : Int) else (un : Int), none)

/-- Go `strconv.Atoi` on a 64-bit platform: the fast path for inputs of 1 to
18 bytes, `ParseInt(s, 10, 0)` otherwise. -/
def strconvAtoi (s : List Char) : Int × Option NumErr :=
  if 0 < byteLen s ∧ byteLen s < 19 then
    match s with
    | [] => (0, some .errSyntax)
    | c :: rest =>
      let signed := c == '-' || c == '+'
      let body := if signed then rest else s
      if signed && body.length < 1 then (0, some .errSyntax)
      else
        match atoiFastLoop body 0 with
        | .error e => (0, some e)
        | .ok n => (if c == '-' then -n else n, none)
  else parseInt s

/-- The count a numeric token stands for, in the words of the specification:
the thousands separators are dropped and the remaining digits are read as a
decimal number. -/
def specDecimalValue (token : List Char) : Nat :=
  (token.filter isDigit).foldl (fun acc c => 10 * acc + digitOf c) 0

/-! ## The count resolver: `getJobCounts` -/

/-- The character class `[0-9,]` of the pattern compiled in `getJobCounts`. -/
def isTok (c : Char) : Bool :=
  isDigit c || c == ','

/-- Go `r.FindAllString(s, -1)` for the pattern `[0-9,]+`: the successive
leftmost, greedy matches, that is the maximal runs of class characters. -/
def findAllString (s : List Char) : List (List Char) :=
  splitRuns (fun c => !isTok c) [] s

/-- The closure passed to `Each` in `getJobCounts`, run on the text of one
`#searchCountPages` element; `pages` is the captured variable, whose new value
is returned.  Indexing `str[1]` on a slice of length 1 panics. -/
def countClosure (pages : Int) (text : String) : Outcome Int :=
  let resultText := cleanString text
  let str := findAllString resultText.data
  if str.length < 1 then .ok pages
  else
    match str[1]? with
    | none => .panic
    | some m => .ok (strconvAtoi (removeCommas m)).1

/-- The traversal `doc.Find("#searchCountPages").Each(...)` over the texts of
the matched elements, in document order. -/
def eachCount : List String → Int → Outcome Int
  | [], pages => .ok pages
  | t :: ts, pages => (countClosure pages t).bind (eachCount ts)

/-- Function `checkResp` of `jobs.go`: any status code other than 200 is fatal. -/
def checkResp (statusCode : Int) : Outcome Unit :=
  if statusCode != 200 then .fatal else .ok ()

/-- A listing card as `getJobs` sees it through goquery: `attr` is
`s.Attr(name)` (absent: `none`), `find sel` the text contents of the elements
`s.Find(sel)` selects (absent: the empty list). -/
structure Card where
  attr : String → Option String
  find : String → List String

/-- A parsed results page: the texts of its `#searchCountPages` elements and
its `.jobsearch-SerpJobCard` elements, in document order. -/
structure Document where
  indicators : List String
  cards : List Card

/-- An HTTP response: its status code and its body, `none` when the body
cannot be read (`goquery.NewDocumentFromReader` fails). -/
structure Response where
  statusCode : Int
  body : Option Document

/-- The site: `http.Get(url)`, `none` on a transport error. -/
abbrev Web := String → Option Response

/-- Constant `baseURL` of `jobs.go`. -/
def baseURL : String := "https://kr.indeed.com/jobs"

/-- The fetch sequence shared by `getJobCounts` and `getJobs`: `http.Get`,
`checkErr`, `checkResp`, `goquery.NewDocumentFromReader`, `checkErr`. -/
def fetchDocument (web : Web) (url : String) : Outcome Document :=
  match web url with
  | none => .fatal
  | some res =>
    (checkResp res.statusCode).bind fun _ =>
      match res.body with
      | none => .fatal
      | some doc => .ok doc

/-- Function `getJobCounts` of `jobs.go`. -/
def getJobCounts (web : Web) (searchWord : String) : Outcome Int :=
  (fetchDocument web (baseURL ++ "?q=" ++ searchWord)).bind fun doc =>
    eachCount doc.indicators 0

/-! ## The record extractor: `getJobs` -/

/-- The `job` struct of `jobs.go`. -/
structure Job where
  id : String
  title : String
  company : String
  location : String
  summary : String
  salary : String
  deriving DecidableEq

/-- Goquery `Selection.Text()`: the concatenated text of the selected
elements, empty for an empty selection. -/
def selectionText (s : Card) (sel : String) : String :=
  String.join (s.find sel)

/-- The closure passed to `Each` in `getJobs`: the record built from one
card. -/
def cardJob (s : Card) : Job :=
  { id := (s.attr "data-jk").getD ""
    title := cleanString (selectionText s ".title>a")
    company := cleanString (selectionText s ".sjcl .company")
    location := cleanString (selectionText s ".sjcl .location")
    summary := cleanString (selectionText s ".summary")
    salary := cleanString (selectionText s ".salary .salaryText") }

/-- The traversal in `getJobs`: `jobs = append(jobs, &job{...})` for every
card, in document order. -/
def eachCard (cards : List Card) : List Job :=
  cards.foldl (fun jobs s => jobs ++ [cardJob s]) []

/-- Function `getJobs` of `jobs.go`. -/
def getJobs (web : Web) (searchWord : String) (start : Int) : Outcome (List Job) :=
  (fetchDocument web
      (baseURL ++ "?q=" ++ searchWord ++ "&limit=50&start=" ++ toString start)).bind
    fun doc => .ok (eachCard doc.cards)

/-! ## The exporter: `writeToCSV` -/

/-- The header row of `writeToCSV`. -/
def headers : List String :=
  ["Link", "Title", "Company", "Location", "Summary", "Salary"]

/-- The record `writeToCSV` passes to `wr.Write` for one job; the link is
`fmt.Sprintf("%s?q=%s&vjk=%s", baseURL, searchWord, job.id)`. -/
def jobRow (searchWord : String) (job : Job) : List String :=
  [baseURL ++ "?q=" ++ searchWord ++ "&vjk=" ++ job.id,
    job.title, job.company, job.location, job.summary, job.salary]

/-- Function `writeToCSV` of `jobs.go`, as the sequence of records handed to
`wr.Write`, the file being created and written without error: the header,
then the loop over `jobs`. -/
def writeToCSV (jobs : List Job) (searchWord : String) : List (List String) :=
  jobs.foldl (fun written job => written ++ [jobRow searchWord job]) [headers]

/-! ## The parallel aggregator: `scrapeJob` -/

/-- The loop `for start := 0; start < totalJobCounts; start += 50` of
`scrapeJob`, from the current value of `start`: the offsets with which a
goroutine is launched, in launch order; `none` when the fuel does not suffice
for the loop to end.  The addition wraps around as Go's `int` does. -/
def fanOut : Nat → Int → Int → Option (List Int)
  | 0, _, _ => none
  | fuel + 1, totalJobCounts, start =>
    if start < totalJobCounts then
      (fanOut fuel totalJobCounts (wrapInt (start + 50))).map (start :: ·)
    else some []

/-- Progress of one page goroutine through
`jobs = append(jobs, getJobs(searchWord, start)...)`: it has not read the
shared variable yet, it holds the slice it read, or it has stored its
result. -/
inductive Task where
  | ready : Task
  | loaded : List Job → Task
  | done : Task
  deriving DecidableEq

/-- The shared variable `jobs` and the goroutines of `scrapeJob`. -/
structure Pool where
  jobs : List Job
  tasks : List Task
  deriving DecidableEq

/-- One step of goroutine `i`, whose page holds the records `page`: the read
of the shared `jobs`, then the store of `append` of what was read; the two are
separate memory operations, nothing in `scrapeJob` orders them between
goroutines. -/
def stepTask (page : List Job) (i : Nat) (p : Pool) : Pool :=
  match p.tasks[i]? with
  | some .ready => { p with tasks := p.tasks.set i (.loaded p.jobs) }
  | some (.loaded seen) => { jobs := seen ++ page, tasks := p.tasks.set i .done }
  | _ => p

/-- A run of the goroutines under a schedule, the list of the goroutines
taking a step in turn; `pages` are the per-page results, one per offset. -/
def runSchedule (pages : List (List Job)) (schedule : List Nat) : Pool :=
  schedule.foldl (fun p i => stepTask (pages.getD i []) i p)
    { jobs := [], tasks := pages.map fun _ => Task.ready }

/-- What `wg.Wait()` waits for: every goroutine is done. -/
def allDone (p : Pool) : Bool :=
  p.tasks.all fun t => t == Task.done

/-- No two adjacent characters are both white space. -/
def NoSpacePair (a b : Char) : Prop :=
  ¬(isSpace a = true ∧ isSpace b = true)

/-! ## Sample data -/

/-- A listing card with every element but the salary. -/
def cardNoSalary : Card where
  attr := fun name => if name = "data-jk" then some "abc123" else none
  find := fun sel =>
    if sel = ".title>a" then ["  Go \n Developer "]
    else if sel = ".sjcl .company" then ["ACME"]
    else if sel = ".sjcl .location" then ["Seoul"]
    else if sel = ".summary" then ["Build  things"]
    else []

/-- A site that serves, for every URL, a results page whose only card is
`cardNoSalary`. -/
def pageNoSalary : Web :=
  fun _ => some { statusCode := 200,
                  body := some { indicators := [], cards := [cardNoSalary] } }

/-- A record of the first page. -/
def recordA : Job :=
  { id := "a", title := "A", company := "", location := "", summary := "", salary := "" }

/-- A record of the second page. -/
def recordB : Job :=
  { id := "b", title := "B", company := "", location := "", summary := "", salary := "" }

/-! ## Lemmas on the run scanner -/

theorem splitRuns_nil_sep (sep : Char → Bool) (c : Char) (cs : List Char)
    (h : sep c = true) : splitRuns sep [] (c :: cs) = splitRuns sep [] cs := by
  simp [splitRuns, h]

theorem splitRuns_cur_sep (sep : Char → Bool) (cur : List Char) (c : Char)
    (cs : List Char) (hcur : cur ≠ []) (h : sep c = true) :
    splitRuns sep cur (c :: cs) = cur :: splitRuns sep [] cs := by
  simp [splitRuns, h, hcur]

theorem splitRuns_nonsep (sep : Char → Bool) (cur : List Char) (c : Char)
    (cs : List Char) (h : sep c = false) :
    splitRuns sep cur (c :: cs) = splitRuns sep (cur ++ [c]) cs := by
  simp [splitRuns, h]

theorem stringsJoin_cons_cons (w v : List Char) (vs : List (List Char))
    (sep : List Char) :
    stringsJoin (w :: v :: vs) sep = w ++ sep ++ stringsJoin (v :: vs) sep := rfl

theorem splitRuns_cur_nil (sep : Char → Bool) (cur : List Char) (hcur : cur ≠ []) :
    splitRuns sep cur [] = [cur] := by
  simp [splitRuns, hcur]

theorem splitRuns_word (sep : Char → Bool) (w : List Char)
    (hw : ∀ c ∈ w, sep c = false) (cur s : List Char) :
    splitRuns sep cur (w ++ s) = splitRuns sep (cur ++ w) s := by
  induction w generalizing cur with
  | nil => simp
  | cons c w ih =>
    have hc : sep c = false := hw c (List.mem_cons_self c w)
    have hw2 : ∀ d ∈ w, sep d = false := fun d hd => hw d (List.mem_cons_of_mem c hd)
    rw [List.cons_append, splitRuns_nonsep sep cur c _ hc, ih hw2 (cur ++ [c])]
    simp

theorem splitRuns_leading (sep : Char → Bool) (ws : List Char)
    (hws : ∀ c ∈ ws, sep c = true) (s : List Char) :
    splitRuns sep [] (ws ++ s) = splitRuns sep [] s := by
  induction ws with
  | nil => simp
  | cons c ws ih =>
    have hc : sep c = true := hws c (List.mem_cons_self c ws)
    have hws2 : ∀ d ∈ ws, sep d = true := fun d hd => hws d (List.mem_cons_of_mem c hd)
    rw [List.cons_append, splitRuns_nil_sep sep c _ hc, ih hws2]

theorem splitRuns_only_seps (sep : Char → Bool) (ws : List Char)
    (hws : ∀ c ∈ ws, sep c = true) (cur : List Char) :
    splitRuns sep cur ws = splitRuns sep cur [] := by
  cases ws with
  | nil => rfl
  | cons c ws =>
    have hc : sep c = true := hws c (List.mem_cons_self c ws)
    have hws2 : ∀ d ∈ ws, sep d = true := fun d hd => hws d (List.mem_cons_of_mem c hd)
    have h0 : splitRuns sep [] ws = [] := by
      have := splitRuns_leading sep ws hws2 []
      simpa [splitRuns] using this
    by_cases hcur : cur = []
    · subst hcur
      rw [splitRuns_nil_sep sep c ws hc, h0]
      simp [splitRuns]
    · rw [splitRuns_cur_sep sep cur c ws hcur hc, h0, splitRuns_cur_nil sep cur hcur]

theorem splitRuns_trailing (sep : Char → Bool) (ws : List Char)
    (hws : ∀ c ∈ ws, sep c = true) (s cur : List Char) :
    splitRuns sep cur (s ++ ws) = splitRuns sep cur s := by
  induction s generalizing cur with
  | nil => simpa using splitRuns_only_seps sep ws hws cur
  | cons c s ih =>
    rw [List.cons_append]
    by_cases hc : sep c = true
    · by_cases hcur : cur = []
      · subst hcur
        rw [splitRuns_nil_sep sep c _ hc, splitRuns_nil_sep sep c _ hc, ih []]
      · rw [splitRuns_cur_sep sep cur c _ hcur hc, splitRuns_cur_sep sep cur c _ hcur hc,
          ih []]
    · have hc2 : sep c = false := by simpa using hc
      rw [splitRuns_nonsep sep cur c _ hc2, splitRuns_nonsep sep cur c _ hc2,
        ih (cur ++ [c])]

theorem splitRuns_runs (sep : Char → Bool) (s cur : List Char)
    (hcur : ∀ c ∈ cur, sep c = false) :
    ∀ f ∈ splitRuns sep cur s, f ≠ [] ∧ ∀ c ∈ f, sep c = false := by
  induction s generalizing cur with
  | nil =>
    intro f hf
    by_cases h : cur = []
    · simp [splitRuns, h] at hf
    · simp [splitRuns, h] at hf
      subst hf
      exact ⟨h, hcur⟩
  | cons c s ih =>
    intro f hf
    by_cases hc : sep c = true
    · by_cases h : cur = []
      · subst h
        rw [splitRuns_nil_sep sep c s hc] at hf
        exact ih [] (by simp) f hf
      · rw [splitRuns_cur_sep sep cur c s h hc] at hf
        rcases List.mem_cons.mp hf with hf | hf
        · subst hf
          exact ⟨h, hcur⟩
        · exact ih [] (by simp) f hf
    · have hc2 : sep c = false := by simpa using hc
      rw [splitRuns_nonsep sep cur c s hc2] at hf
      refine ih (cur ++ [c]) ?_ f hf
      intro d hd
      rcases List.mem_append.mp hd with hd | hd
      · exact hcur d hd
      · simp at hd
        subst hd
        exact hc2

theorem splitRuns_join (sep : Char → Bool) (x : Char) (hx : sep x = true)
    (ws : List (List Char)) (hws : ∀ w ∈ ws, w ≠ [] ∧ ∀ c ∈ w, sep c = false) :
    splitRuns sep [] (stringsJoin ws [x]) = ws := by
  induction ws with
  | nil => simp [stringsJoin, splitRuns]
  | cons w ws ih =>
    have hw := hws w (List.mem_cons_self w ws)
    have hws2 : ∀ v ∈ ws, v ≠ [] ∧ ∀ c ∈ v, sep c = false :=
      fun v hv => hws v (List.mem_cons_of_mem w hv)
    cases ws with
    | nil =>
      have := splitRuns_word sep w hw.2 [] []
      simp only [List.append_nil, List.nil_append] at this
      rw [stringsJoin, this, splitRuns_cur_nil sep w hw.1]
    | cons v vs =>
      rw [stringsJoin_cons_cons, List.append_assoc, splitRuns_word sep w hw.2 [] _]
      simp only [List.nil_append, List.singleton_append]
      rw [splitRuns_cur_sep sep w x _ hw.1 hx, ih hws2]

/-- The trimmed string sits between a run of leading and a run of trailing
white space. -/
theorem trimSpace_decompose (s : List Char) :
    ∃ l r : List Char, (∀ c ∈ l, isSpace c = true) ∧ (∀ c ∈ r, isSpace c = true) ∧
      s = l ++ (stringsTrimSpace s ++ r) := by
  refine ⟨s.takeWhile isSpace, ((s.dropWhile isSpace).reverse.takeWhile isSpace).reverse,
    fun c hc => (List.mem_takeWhile_imp hc), fun c hc => ?_, ?_⟩
  · exact List.mem_takeWhile_imp (List.mem_reverse.mp hc)
  · have h1 : s.takeWhile isSpace ++ s.dropWhile isSpace = s :=
      List.takeWhile_append_dropWhile isSpace s
    have h2 := List.takeWhile_append_dropWhile isSpace (s.dropWhile isSpace).reverse
    have h3 : s.dropWhile isSpace
        = ((s.dropWhile isSpace).reverse.dropWhile isSpace).reverse
          ++ ((s.dropWhile isSpace).reverse.takeWhile isSpace).reverse := by
      rw [← List.reverse_append, h2, List.reverse_reverse]
    unfold stringsTrimSpace
    rw [← h3, h1]

theorem fields_trimSpace (s : List Char) :
    stringsFields (stringsTrimSpace s) = stringsFields s := by
  obtain ⟨l, r, hl, hr, hs⟩ := trimSpace_decompose s
  unfold stringsFields
  conv_rhs => rw [hs]
  rw [splitRuns_leading isSpace l hl, splitRuns_trailing isSpace r hr]

theorem fields_runs (s : List Char) :
    ∀ f ∈ stringsFields s, f ≠ [] ∧ ∀ c ∈ f, isSpace c = false :=
  splitRuns_runs isSpace s [] (by simp)

theorem isSpace_space : isSpace ' ' = true := by decide

theorem cleanString_data (s : String) :
    (cleanString s).data = stringsJoin (stringsFields s.data) [' '] := by
  simp [cleanString, fields_trimSpace]

theorem fields_cleanString (s : String) :
    stringsFields (cleanString s).data = stringsFields s.data := by
  rw [cleanString_data]
  exact splitRuns_join isSpace ' ' isSpace_space _ (fields_runs s.data)

theorem chain_of_nonspace (w : List Char) (hw : ∀ c ∈ w, isSpace c = false) :
    List.Chain' NoSpacePair w := by
  induction w with
  | nil => exact List.chain'_nil
  | cons a w ih =>
    rw [List.chain'_cons']
    refine ⟨fun y _ h => ?_, ih fun c hc => hw c (List.mem_cons_of_mem a hc)⟩
    have := hw a (List.mem_cons_self a w)
    simp [this] at h

theorem join_shape (ws : List (List Char))
    (hws : ∀ w ∈ ws, w ≠ [] ∧ ∀ c ∈ w, isSpace c = false) :
    (∀ c ∈ (stringsJoin ws [' ']).head?, isSpace c = false) ∧
      (∀ c ∈ (stringsJoin ws [' ']).getLast?, isSpace c = false) ∧
      (∀ c ∈ stringsJoin ws [' '], isSpace c = true → c = ' ') ∧
      List.Chain' NoSpacePair (stringsJoin ws [' ']) := by
  induction ws with
  | nil => simp [stringsJoin]
  | cons w ws ih =>
    have hw := hws w (List.mem_cons_self w ws)
    have hws2 : ∀ v ∈ ws, v ≠ [] ∧ ∀ c ∈ v, isSpace c = false :=
      fun v hv => hws v (List.mem_cons_of_mem w hv)
    cases ws with
    | nil =>
      refine ⟨fun c hc => hw.2 c (List.mem_of_mem_head? hc),
        fun c hc => hw.2 c (List.mem_of_mem_getLast? hc), fun c hc hs => ?_,
        chain_of_nonspace w hw.2⟩
      have := hw.2 c hc
      simp [this] at hs
    | cons v vs =>
      obtain ⟨ih1, ih2, ih3, ih4⟩ := ih hws2
      have hv := hws2 v (List.mem_cons_self v vs)
      have hne : stringsJoin (v :: vs) [' '] ≠ [] := by
        cases vs with
        | nil => exact hv.1
        | cons u us =>
          rw [stringsJoin_cons_cons]
          simp [hv.1]
      rw [stringsJoin_cons_cons, List.append_assoc]
      refine ⟨?_, ?_, ?_, ?_⟩
      · intro c hc
        obtain ⟨a, w2, rfl⟩ := List.exists_cons_of_ne_nil hw.1
        simp at hc
        subst hc
        exact hw.2 a (List.mem_cons_self a w2)
      · intro c hc
        rw [List.getLast?_append_of_ne_nil _ (by simp),
          List.getLast?_append_of_ne_nil _ hne] at hc
        exact ih2 c hc
      · intro c hc hs
        rcases List.mem_append.mp hc with h | h
        · have := hw.2 c h
          simp [this] at hs
        · rcases List.mem_append.mp h with h | h
          · simpa using h
          · exact ih3 c h hs
      · refine List.Chain'.append (chain_of_nonspace w hw.2) ?_ ?_
        · rw [List.singleton_append, List.chain'_cons']
          refine ⟨fun y hy h => ?_, ih4⟩
          have := ih1 y hy
          simp [this] at h
        · intro x hx y _ h
          have := hw.2 x (List.mem_of_mem_getLast? hx)
          simp [this] at h

theorem splitRuns_weave (sep : Char → Bool) (rest : List (List Char × List Char))
    (w₀ : List Char) (hw₀ : w₀ ≠ [] ∧ ∀ c ∈ w₀, sep c = false)
    (hrest : ∀ p ∈ rest, (p.1 ≠ [] ∧ ∀ c ∈ p.1, sep c = true) ∧
      (p.2 ≠ [] ∧ ∀ c ∈ p.2, sep c = false)) :
    splitRuns sep [] (weave w₀ rest) = w₀ :: rest.map Prod.snd := by
  induction rest generalizing w₀ with
  | nil =>
    have := splitRuns_word sep w₀ hw₀.2 [] []
    simp only [List.append_nil, List.nil_append] at this
    simp [weave, this, splitRuns_cur_nil sep w₀ hw₀.1]
  | cons p rest ih =>
    obtain ⟨sp, w⟩ := p
    have hp := hrest (sp, w) (List.mem_cons_self _ _)
    have hrest2 : ∀ q ∈ rest, (q.1 ≠ [] ∧ ∀ c ∈ q.1, sep c = true) ∧
        (q.2 ≠ [] ∧ ∀ c ∈ q.2, sep c = false) :=
      fun q hq => hrest q (List.mem_cons_of_mem _ hq)
    obtain ⟨c, sp2, rfl⟩ := List.exists_cons_of_ne_nil hp.1.1
    have hc : sep c = true := hp.1.2 c (List.mem_cons_self c sp2)
    have hsp2 : ∀ d ∈ sp2, sep d = true :=
      fun d hd => hp.1.2 d (List.mem_cons_of_mem c hd)
    rw [weave, List.append_assoc, splitRuns_word sep w₀ hw₀.2 [] _, List.nil_append,
      List.cons_append, splitRuns_cur_sep sep w₀ c _ hw₀.1 hc,
      splitRuns_leading sep sp2 hsp2, ih w hp.2 hrest2]
    simp

theorem stringsJoin_weave (x : Char) (rest : List (List Char × List Char))
    (w₀ : List Char) :
    stringsJoin (w₀ :: rest.map Prod.snd) [x]
      = weave w₀ (rest.map fun p => ([x], p.2)) := by
  induction rest generalizing w₀ with
  | nil => simp [stringsJoin, weave]
  | cons p rest ih =>
    obtain ⟨sp, w⟩ := p
    rw [List.map_cons, stringsJoin_cons_cons, List.map_cons, weave, ih w]

/-! ## Claims C5, C6 and C10 -/

/-- Claim C5: for every string `s`, `cleanString s` has no leading and no
trailing white space, its only white-space character is the space U+0020, it
never has two adjacent spaces, and when `s` consists of leading white space,
words separated by non-empty runs of white space, and trailing white space,
`cleanString s` is those words with every run replaced by exactly one
space. -/
theorem cleanString_normal_form (s : String) :
    (∀ c ∈ (cleanString s).data.head?, isSpace c = false) ∧
      (∀ c ∈ (cleanString s).data.getLast?, isSpace c = false) ∧
      (∀ c ∈ (cleanString s).data, isSpace c = true → c = ' ') ∧
      ¬([' ', ' '] <:+: (cleanString s).data) ∧
      ∀ (lead trail w₀ : List Char) (rest : List (List Char × List Char)),
        (∀ c ∈ lead, isSpace c = true) → (∀ c ∈ trail, isSpace c = true) →
        (w₀ ≠ [] ∧ ∀ c ∈ w₀, isSpace c = false) →
        (∀ p ∈ rest, (p.1 ≠ [] ∧ ∀ c ∈ p.1, isSpace c = true) ∧
          (p.2 ≠ [] ∧ ∀ c ∈ p.2, isSpace c = false)) →
        s.data = lead ++ (weave w₀ rest ++ trail) →
        (cleanString s).data = weave w₀ (rest.map fun p => ([' '], p.2)) := by
  obtain ⟨h1, h2, h3, h4⟩ := join_shape (stringsFields s.data) (fields_runs s.data)
  rw [cleanString_data]
  refine ⟨h1, h2, h3, fun hin => ?_, ?_⟩
  · have hpair : List.Chain' NoSpacePair [' ', ' '] := List.Chain'.infix h4 hin
    exact List.chain'_pair.mp hpair ⟨isSpace_space, isSpace_space⟩
  · intro lead trail w₀ rest hlead htrail hw₀ hrest hs
    rw [hs]
    unfold stringsFields
    rw [splitRuns_leading isSpace lead hlead, splitRuns_trailing isSpace trail htrail,
      splitRuns_weave isSpace rest w₀ hw₀ hrest, stringsJoin_weave]


/-- Witness for C5 at `"  a \n\t b  "`: the normal form is `"a b"`. -/
theorem cleanString_normal_form_witness :
    (cleanString "  a \n\t b  ").data = ['a', ' ', 'b'] :=
  (cleanString_normal_form "  a \n\t b  ").2.2.2.2 [' ', ' '] [' ', ' '] ['a']
    [([' ', '\n', '\t', ' '], ['b'])] (by decide) (by decide) (by decide) (by decide)
    (by decide)

/-- Claim C6: `cleanString` is idempotent, for every string `s`
`cleanString (cleanString s) = cleanString s`. -/
theorem cleanString_idempotent (s : String) :
    cleanString (cleanString s) = cleanString s := by
  apply String.ext
  rw [cleanString_data, fields_cleanString, cleanString_data]

/-- Claim C10: `cleanString` keeps the sequence of white-space delimited words,
`strings.Fields (cleanString s) = strings.Fields s`, and the inner
`strings.TrimSpace` is redundant: `cleanString s` is the join with one space
of `strings.Fields s`. -/
theorem cleanString_preserves_words (s : String) :
    stringsFields (cleanString s).data = stringsFields s.data ∧
      cleanString s = ⟨stringsJoin (stringsFields s.data) [' ']⟩ :=
  ⟨fields_cleanString s, String.ext (cleanString_data s)⟩

/-! ## Claim C1: the fan-out loop -/

theorem wrapInt_of_range (x : Int) (h1 : -9223372036854775808 ≤ x)
    (h2 : x ≤ 9223372036854775807) : wrapInt x = x := by
  unfold wrapInt
  omega

theorem wrapInt_even_range (x : Int) (h : x % 2 = 0) :
    wrapInt (x + 50) % 2 = 0 ∧ -9223372036854775808 ≤ wrapInt (x + 50) ∧
      wrapInt (x + 50) ≤ 9223372036854775807 := by
  unfold wrapInt
  omega

theorem fanOut_from (N : Int) (hN : N ≤ 9223372036854775800) (d : Nat) :
    ∀ (k extra : Nat), N ≤ 50 * ((k + d : Nat) : Int) →
      (0 < d → 50 * ((k + d : Nat) : Int) - 50 < N) →
      fanOut (d + 1 + extra) N (50 * (k : Int))
        = some ((List.range d).map fun i => 50 * ((k + i : Nat) : Int)) := by
  induction d with
  | zero =>
    intro k extra h1 _
    have : ¬ (50 * (k : Int) < N) := by
      simp only [Nat.add_zero] at h1
      omega
    rw [show 0 + 1 + extra = extra + 1 by omega]
    simp [fanOut, this]
  | succ d ih =>
    intro k extra h1 h2
    have h2b := h2 (Nat.succ_pos d)
    push_cast at h1 h2b
    have hlt : 50 * (k : Int) < N := by omega
    have hw : wrapInt (50 * (k : Int) + 50) = 50 * ((k + 1 : Nat) : Int) := by
      rw [wrapInt_of_range _ (by omega) (by omega)]
      push_cast
      ring
    have ih2 := ih (k + 1) extra (by push_cast; omega) (by intro _; push_cast; omega)
    rw [show d + 1 + 1 + extra = (d + 1 + extra) + 1 by omega]
    rw [fanOut, if_pos hlt, hw, ih2, Option.map_some', List.range_succ_eq_map,
      List.map_cons, List.map_map]
    have hfun : (fun i : Nat => 50 * ((k + 1 + i : Nat) : Int))
        = (fun i : Nat => 50 * ((k + i : Nat) : Int)) ∘ Nat.succ := by
      funext i
      simp only [Function.comp, Nat.succ_eq_add_one]
      rw [show k + 1 + i = k + (i + 1) by omega]
    rw [hfun, Nat.add_zero]

theorem fanOut_diverges_even (fuel : Nat) :
    ∀ start : Int, start % 2 = 0 → -9223372036854775808 ≤ start →
      start ≤ 9223372036854775807 → fanOut fuel 9223372036854775807 start = none := by
  induction fuel with
  | zero => intro start _ _ _; rfl
  | succ fuel ih =>
    intro start he hlo hhi
    have hlt : start < 9223372036854775807 := by omega
    obtain ⟨w1, w2, w3⟩ := wrapInt_even_range start he
    rw [fanOut, if_pos hlt, ih _ w1 w2 w3]
    rfl

/-- Claim C1, as amended: for every total count `N` up to 9223372036854775800,
the largest multiple of 50 a 64-bit `int` holds (`N ≤ 0` included), the loop of
`scrapeJob` ends, launches exactly `ceil(N/50)` goroutines (none when `N ≤ 0`),
and the offsets passed on are `0, 50, 100, ...`: every multiple of 50 that is
`≥ 0` and `< N`, each exactly once; for `N = 120` they are `0, 50, 100`. -/
theorem fanOut_offsets (N : Int) (hN : N ≤ 9223372036854775800) :
    ∃ offsets : List Int,
      (∀ fuel, (N.toNat + 49) / 50 < fuel → fanOut fuel N 0 = some offsets) ∧
      offsets = (List.range ((N.toNat + 49) / 50)).map (fun (i : Nat) => 50 * (i : Int)) ∧
      offsets.length = (N.toNat + 49) / 50 ∧
      offsets.Nodup ∧
      (∀ x : Int, x ∈ offsets ↔ 0 ≤ x ∧ x < N ∧ 50 ∣ x) ∧
      (N = 120 → offsets = [0, 50, 100]) := by
  refine ⟨_, ?_, rfl, by simp, ?_, ?_, ?_⟩
  · intro fuel hfuel
    obtain ⟨extra, rfl⟩ : ∃ extra, fuel = (N.toNat + 49) / 50 + 1 + extra :=
      ⟨fuel - ((N.toNat + 49) / 50 + 1), by omega⟩
    have := fanOut_from N hN ((N.toNat + 49) / 50) 0 extra (by push_cast; omega)
      (by intro _; push_cast; omega)
    simpa using this
  · refine List.Nodup.map ?_ (List.nodup_range _)
    intro a b hab
    simp only at hab
    omega
  · intro x
    simp only [List.mem_map, List.mem_range]
    constructor
    · rintro ⟨i, hi, rfl⟩
      refine ⟨by omega, by omega, Dvd.intro _ rfl⟩
    · rintro ⟨h0, hlt, ⟨q, rfl⟩⟩
      refine ⟨q.toNat, by omega, by omega⟩
  · rintro rfl
    decide

/-- Witness for C1 at `N = 120`: three goroutines, offsets `0, 50, 100`. -/
theorem fanOut_offsets_witness :
    ∃ offsets : List Int, fanOut 4 120 0 = some offsets ∧ offsets = [0, 50, 100] := by
  obtain ⟨offsets, h1, _, _, _, _, h6⟩ := fanOut_offsets 120 (by decide)
  exact ⟨offsets, h1 4 (by decide), h6 rfl⟩

/-- Counterexample to C1 as stated, at `N = 9223372036854775807` (the largest
`int`): after the offset 9223372036854775800 the addition `start += 50` wraps
around to a negative value, which is again `< N`, and the loop never ends, so
it does not launch exactly `ceil(N/50)` goroutines. -/
theorem fanOut_maxInt_counterexample :
    (∀ fuel, fanOut fuel 9223372036854775807 0 = none) ∧
      wrapInt (9223372036854775800 + 50) = -9223372036854775766 ∧
      (-9223372036854775766 : Int) < 9223372036854775807 :=
  ⟨fun fuel => fanOut_diverges_even fuel 0 (by decide) (by decide) (by decide),
    by decide, by decide⟩

/-! ## Claim C2: the count is the second numeric token -/

/-- The model of `strconv.Atoi` on sample inputs: plain, signed, empty,
malformed, the largest `int`, and out of range. -/
theorem strconvAtoi_samples :
    strconvAtoi "2195".data = (2195, none) ∧
      strconvAtoi "-12".data = (-12, none) ∧
      strconvAtoi "".data = (0, some .errSyntax) ∧
      strconvAtoi "12a".data = (0, some .errSyntax) ∧
      strconvAtoi "9223372036854775807".data = (maxInt, none) ∧
      strconvAtoi "9223372036854775808".data = (maxInt, some .errRange) ∧
      strconvAtoi "99999999999999999999999x".data = (maxInt, some .errRange) := by
  decide

theorem foldl_digits_ge (ds : List Char) (n : Nat) :
    n ≤ ds.foldl (fun acc c => 10 * acc + digitOf c) n := by
  induction ds generalizing n with
  | nil => exact Nat.le_refl n
  | cons c cs ih =>
    have := ih (10 * n + digitOf c)
    simp only [List.foldl_cons]
    omega

theorem atoiFastLoop_digits (ds : List Char) (hds : ∀ c ∈ ds, isDigit c = true)
    (n : Nat) :
    atoiFastLoop ds (n : Int)
      = .ok ((ds.foldl (fun acc c => 10 * acc + digitOf c) n : Nat) : Int) := by
  induction ds generalizing n with
  | nil => rfl
  | cons c cs ih =>
    have hc := hds c (List.mem_cons_self c cs)
    have := ih (fun d hd => hds d (List.mem_cons_of_mem c hd)) (10 * n + digitOf c)
    rw [atoiFastLoop, if_pos hc, List.foldl_cons, ← this]
    congr 1
    push_cast
    ring

theorem parseUintLoop_digits (ds : List Char) (hds : ∀ c ∈ ds, isDigit c = true)
    (n : Nat)
    (hfit : ds.foldl (fun acc c => 10 * acc + digitOf c) n ≤ 18446744073709551615) :
    parseUintLoop ds n = .ok (ds.foldl (fun acc c => 10 * acc + digitOf c) n) := by
  induction ds generalizing n with
  | nil => rfl
  | cons c cs ih =>
    have hc := hds c (List.mem_cons_self c cs)
    rw [List.foldl_cons] at hfit
    have hge := foldl_digits_ge cs (10 * n + digitOf c)
    have h1 : ¬ (n ≥ maxUint64 / 10 + 1) := by
      unfold maxUint64
      omega
    have h2 : ¬ (n * 10 + digitOf c > maxUint64) := by
      unfold maxUint64
      omega
    rw [parseUintLoop, List.foldl_cons]
    simp only [hc, Bool.not_true, Bool.false_eq_true, if_false, h1, h2]
    rw [show n * 10 + digitOf c = 10 * n + digitOf c by omega]
    exact ih (fun d hd => hds d (List.mem_cons_of_mem c hd)) _ hfit

theorem digit_not_sign (c : Char) (hc : isDigit c = true) :
    (c == '-') = false ∧ (c == '+') = false := by
  constructor
  · by_contra h
    have : c = '-' := by simpa using h
    subst this
    exact absurd hc (by decide)
  · by_contra h
    have : c = '+' := by simpa using h
    subst this
    exact absurd hc (by decide)

theorem strconvAtoi_digits (ds : List Char) (hds : ∀ c ∈ ds, isDigit c = true)
    (hfit : ((ds.foldl (fun acc c => 10 * acc + digitOf c) 0 : Nat) : Int) ≤ maxInt) :
    (strconvAtoi ds).1 = ((ds.foldl (fun acc c => 10 * acc + digitOf c) 0 : Nat) : Int) := by
  have hfit2 : ds.foldl (fun acc c => 10 * acc + digitOf c) 0 ≤ 9223372036854775807 := by
    unfold maxInt at hfit
    omega
  cases ds with
  | nil => simp [strconvAtoi, byteLen, parseInt]
  | cons c cs =>
    obtain ⟨hm, hp⟩ := digit_not_sign c (hds c (List.mem_cons_self c cs))
    have hfast := atoiFastLoop_digits (c :: cs) hds 0
    have hslow := parseUintLoop_digits (c :: cs) hds 0 (by omega)
    unfold strconvAtoi
    split
    · simp only [hm, hp, Bool.or_self, Bool.false_and, Bool.false_eq_true, if_false]
      rw [show ((0 : Int)) = ((0 : Nat) : Int) by rfl, hfast]
    · simp only [parseInt, parseUint, hm, hp, Bool.or_self, Bool.false_eq_true, if_false,
        hslow]
      have hlt : ¬ (9223372036854775808
          ≤ List.foldl (fun acc c => 10 * acc + digitOf c) 0 (c :: cs)) := by omega
      simp only [List.foldl_cons, Nat.mul_zero, Nat.zero_add] at hlt ⊢
      simp [hlt]

theorem token_chars (s m : List Char) (hm : m ∈ findAllString s) :
    ∀ c ∈ m, isTok c = true := by
  intro c hc
  have := (splitRuns_runs (fun c => !isTok c) s [] (by simp) m hm).2 c hc
  simpa using this

theorem removeCommas_token (m : List Char) (hm : ∀ c ∈ m, isTok c = true) :
    removeCommas m = m.filter isDigit := by
  unfold removeCommas
  apply List.filter_congr
  intro c hc
  have ht := hm c hc
  unfold isTok at ht
  by_cases hcomma : c = ','
  · subst hcomma
    decide
  · have h1 : (c == ',') = false := by simpa using hcomma
    have h2 : (c != ',') = true := by simpa using hcomma
    rw [h1, Bool.or_false] at ht
    rw [ht, h2]

theorem getJobCounts_of_page (web : Web) (searchWord : String) (doc : Document)
    (hweb : web (baseURL ++ "?q=" ++ searchWord)
      = some { statusCode := 200, body := some doc }) :
    getJobCounts web searchWord = eachCount doc.indicators 0 := by
  simp [getJobCounts, fetchDocument, hweb, checkResp, Outcome.bind]

/-- Claim C2: for every indicator text whose normalized form has at least two
matches of `[0-9,]+`, the second of which fits in an `int`, the count resolved
by `getJobCounts` is the decimal value of the second match with its commas
removed; the first match is ignored. -/
theorem count_is_second_token (pages : Int) (text : String) (m₁ m₂ : List Char)
    (rest : List (List Char))
    (hmatch : findAllString (cleanString text).data = m₁ :: m₂ :: rest)
    (hfit : (specDecimalValue m₂ : Int) ≤ maxInt) :
    countClosure pages text = .ok (specDecimalValue m₂ : Int) ∧
      eachCount [text] pages = .ok (specDecimalValue m₂ : Int) ∧
      ∀ (web : Web) (searchWord : String) (cards : List Card),
        web (baseURL ++ "?q=" ++ searchWord)
          = some { statusCode := 200, body := some { indicators := [text], cards := cards } } →
        getJobCounts web searchWord = .ok (specDecimalValue m₂ : Int) := by
  suffices h : ∀ pages : Int, countClosure pages text = .ok (specDecimalValue m₂ : Int) ∧
      eachCount [text] pages = .ok (specDecimalValue m₂ : Int) by
    refine ⟨(h pages).1, (h pages).2, fun web searchWord cards hweb => ?_⟩
    rw [getJobCounts_of_page web searchWord _ hweb]
    exact (h 0).2
  intro pages
  have htok : ∀ c ∈ m₂, isTok c = true :=
    token_chars (cleanString text).data m₂ (by rw [hmatch]; simp)
  have hval : (strconvAtoi (removeCommas m₂)).1 = (specDecimalValue m₂ : Int) := by
    rw [removeCommas_token m₂ htok]
    exact strconvAtoi_digits (m₂.filter isDigit)
      (fun c hc => (List.mem_filter.mp hc).2) hfit
  have hclosure : countClosure pages text = .ok (specDecimalValue m₂ : Int) := by
    simp only [countClosure, hmatch, List.length_cons]
    simp [hval]
  exact ⟨hclosure, by simp [eachCount, hclosure, Outcome.bind]⟩

/-- Witness for C2: the text "1페이지 결과 2,195건" yields 2195. -/
theorem count_is_second_token_witness :
    eachCount ["1페이지 결과 2,195건"] 0 = .ok 2195 :=
  (count_is_second_token 0 "1페이지 결과 2,195건" ['1'] ['2', ',', '1', '9', '5'] []
    (by decide) (by decide)).2.1

/-! ## Claim C3: fewer than two numeric tokens -/

theorem countClosure_no_token (pages : Int) (text : String)
    (hmatch : findAllString (cleanString text).data = []) :
    countClosure pages text = .ok pages := by
  simp [countClosure, hmatch]

theorem countClosure_one_token (pages : Int) (text : String) (m : List Char)
    (hmatch : findAllString (cleanString text).data = [m]) :
    countClosure pages text = .panic := by
  simp [countClosure, hmatch]

/-- Claim C3, the code at a failing input: the text "결과 1건" has exactly one
numeric token, the guard `len(str) < 1` lets it through and `str[1]` panics,
whereas the text "결과 없음", which has none, yields 0. -/
theorem count_single_token_panics :
    findAllString (cleanString "결과 1건").data = [['1']] ∧
      eachCount ["결과 1건"] 0 = Outcome.panic ∧
      getJobCounts
          (fun _ => some { statusCode := 200,
                           body := some { indicators := ["결과 1건"], cards := [] } })
          "go"
        = Outcome.panic ∧
      eachCount ["결과 없음"] 0 = Outcome.ok 0 := by
  decide

/-! ## Claim C4: the rows written by `writeToCSV` -/

theorem foldl_append_singleton {α β : Type} (f : α → β) (xs : List α) (init : List β) :
    xs.foldl (fun acc x => acc ++ [f x]) init = init ++ xs.map f := by
  induction xs generalizing init with
  | nil => simp
  | cons x xs ih => simp [ih]

/-- Claim C4: for every list of records and every search term, `writeToCSV`
writes the header row `Link, Title, Company, Location, Summary, Salary`, then
one row per record in the order of the list, `1 + len(jobs)` rows in all, the
row of a record `r` being `baseURL + "?q=" + term + "&vjk=" + r.id`, `r.title`,
`r.company`, `r.location`, `r.summary`, `r.salary`. -/
theorem writeToCSV_rows (jobs : List Job) (searchWord : String) :
    writeToCSV jobs searchWord
        = ["Link", "Title", "Company", "Location", "Summary", "Salary"]
          :: jobs.map (fun r =>
              ["https://kr.indeed.com/jobs" ++ "?q=" ++ searchWord ++ "&vjk=" ++ r.id,
                r.title, r.company, r.location, r.summary, r.salary]) ∧
      (writeToCSV jobs searchWord).length = 1 + jobs.length := by
  have h : writeToCSV jobs searchWord = headers :: jobs.map (jobRow searchWord) := by
    unfold writeToCSV
    rw [foldl_append_singleton]
    rfl
  refine ⟨h, ?_⟩
  rw [h, List.length_cons, List.length_map]
  omega

/-! ## Claim C7: the status check -/

/-- Claim C7, as amended: `checkResp` terminates the process exactly when the
status code is not 200 and returns normally exactly when it is 200; so every
status outside 200..299 is fatal, and within 200..299 only 200 is accepted. -/
theorem checkResp_fatal_iff (statusCode : Int) :
    (checkResp statusCode = Outcome.fatal ↔ statusCode ≠ 200) ∧
      (checkResp statusCode = Outcome.ok () ↔ statusCode = 200) ∧
      (¬(200 ≤ statusCode ∧ statusCode ≤ 299) → checkResp statusCode = Outcome.fatal) := by
  unfold checkResp
  by_cases h : statusCode = 200
  · subst h
    decide
  · have h2 : (statusCode != 200) = true := by simpa using h
    rw [if_pos h2]
    exact ⟨⟨fun _ => h, fun _ => rfl⟩, ⟨fun hk => (by cases hk), fun hk => absurd hk h⟩,
      fun _ => rfl⟩

/-- Witness for C7 at the status 404, outside 200..299: fatal. -/
theorem checkResp_fatal_iff_witness : checkResp 404 = Outcome.fatal :=
  (checkResp_fatal_iff 404).2.2 (by decide)

/-- Counterexample to C7 as stated: the status 201 lies inside 200..299, yet
`checkResp` terminates the process. -/
theorem checkResp_201_counterexample :
    (200 ≤ (201 : Int) ∧ (201 : Int) ≤ 299) ∧ checkResp 201 = Outcome.fatal := by
  decide

/-! ## Claim C8: the record of a listing card -/

theorem cleanString_empty : cleanString "" = "" := by decide

theorem selectionText_absent (s : Card) (sel : String) (h : s.find sel = []) :
    selectionText s sel = "" := by
  simp [selectionText, h, String.join]

theorem eachCard_eq_map (cards : List Card) : eachCard cards = cards.map cardJob := by
  unfold eachCard
  rw [foldl_append_singleton]
  rfl

theorem getJobs_of_page (web : Web) (searchWord : String) (start : Int)
    (doc : Document)
    (hweb : web (baseURL ++ "?q=" ++ searchWord ++ "&limit=50&start=" ++ toString start)
      = some { statusCode := 200, body := some doc }) :
    getJobs web searchWord start = Outcome.ok (doc.cards.map cardJob) := by
  simp [getJobs, fetchDocument, hweb, checkResp, Outcome.bind, eachCard_eq_map]

theorem getJobs_ok_inv (web : Web) (searchWord : String) (start : Int)
    (jobs : List Job) (hjobs : getJobs web searchWord start = Outcome.ok jobs) :
    ∃ doc : Document,
      web (baseURL ++ "?q=" ++ searchWord ++ "&limit=50&start=" ++ toString start)
        = some { statusCode := 200, body := some doc } ∧
      jobs = doc.cards.map cardJob := by
  unfold getJobs fetchDocument checkResp at hjobs
  cases hweb : web (baseURL ++ "?q=" ++ searchWord ++ "&limit=50&start=" ++ toString start) with
  | none =>
    rw [hweb] at hjobs
    simp [Outcome.bind] at hjobs
  | some res =>
    rw [hweb] at hjobs
    obtain ⟨code, body⟩ := res
    by_cases hs : code = 200
    · subst hs
      cases body with
      | none => simp [Outcome.bind] at hjobs
      | some doc =>
        refine ⟨doc, rfl, ?_⟩
        simp [Outcome.bind, eachCard_eq_map] at hjobs
        exact hjobs.symm
    · simp [Outcome.bind, hs] at hjobs

/-- Claim C8: for every listing card, `getJobs` builds, without error, a record
whose five text fields are `cleanString` of the text of the corresponding
sub-selection and whose id is the `data-jk` attribute; an absent attribute or
sub-element gives the empty string for that field (`cleanString "" = ""`), and
the other fields are what they are for any card that differs from this one
only in that attribute or sub-element; on a results page served with status
200, `getJobs` returns exactly these records, one per card in document order,
and it returns records in no other case. -/
theorem cardJob_fields (s : Card) :
    cardJob s =
        { id := (s.attr "data-jk").getD ""
          title := cleanString (String.join (s.find ".title>a"))
          company := cleanString (String.join (s.find ".sjcl .company"))
          location := cleanString (String.join (s.find ".sjcl .location"))
          summary := cleanString (String.join (s.find ".summary"))
          salary := cleanString (String.join (s.find ".salary .salaryText")) } ∧
      (s.attr "data-jk" = none → (cardJob s).id = "") ∧
      (s.find ".title>a" = [] → (cardJob s).title = "") ∧
      (s.find ".sjcl .company" = [] → (cardJob s).company = "") ∧
      (s.find ".sjcl .location" = [] → (cardJob s).location = "") ∧
      (s.find ".summary" = [] → (cardJob s).summary = "") ∧
      (s.find ".salary .salaryText" = [] → (cardJob s).salary = "") ∧
      cleanString "" = "" ∧
      (∀ (s2 : Card) (missing : String),
        (∀ sel, sel ≠ missing → s2.find sel = s.find sel) →
        (missing ≠ "data-jk" → s2.attr "data-jk" = s.attr "data-jk") →
        (missing ≠ "data-jk" → (cardJob s2).id = (cardJob s).id) ∧
        (missing ≠ ".title>a" → (cardJob s2).title = (cardJob s).title) ∧
        (missing ≠ ".sjcl .company" → (cardJob s2).company = (cardJob s).company) ∧
        (missing ≠ ".sjcl .location" → (cardJob s2).location = (cardJob s).location) ∧
        (missing ≠ ".summary" → (cardJob s2).summary = (cardJob s).summary) ∧
        (missing ≠ ".salary .salaryText" → (cardJob s2).salary = (cardJob s).salary)) ∧
      (∀ cards : List Card, ∀ web : Web, ∀ (searchWord : String) (start : Int),
        eachCard cards = cards.map cardJob ∧
        getJobs web searchWord start ≠ Outcome.panic) ∧
      (∀ (web : Web) (searchWord : String) (start : Int) (doc : Document),
        web ("https://kr.indeed.com/jobs" ++ "?q=" ++ searchWord ++ "&limit=50&start="
            ++ toString start)
          = some { statusCode := 200, body := some doc } →
        getJobs web searchWord start = Outcome.ok (doc.cards.map cardJob) ∧
        ∀ jobs, getJobs web searchWord start = Outcome.ok jobs →
          jobs.length = doc.cards.length ∧
          ∀ i (h : i < doc.cards.length), jobs[i]? = some (cardJob doc.cards[i])) ∧
      (∀ (web : Web) (searchWord : String) (start : Int) (jobs : List Job),
        getJobs web searchWord start = Outcome.ok jobs →
        ∃ doc : Document,
          web ("https://kr.indeed.com/jobs" ++ "?q=" ++ searchWord ++ "&limit=50&start="
              ++ toString start)
            = some { statusCode := 200, body := some doc } ∧
          jobs = doc.cards.map cardJob) := by
  refine ⟨rfl, ?_, ?_, ?_, ?_, ?_, ?_, cleanString_empty, ?_, ?_, ?_, ?_⟩
  · intro h
    simp [cardJob, h]
  · intro h
    simp [cardJob, selectionText_absent s _ h, cleanString_empty]
  · intro h
    simp [cardJob, selectionText_absent s _ h, cleanString_empty]
  · intro h
    simp [cardJob, selectionText_absent s _ h, cleanString_empty]
  · intro h
    simp [cardJob, selectionText_absent s _ h, cleanString_empty]
  · intro h
    simp [cardJob, selectionText_absent s _ h, cleanString_empty]
  · intro s2 missing hfind hattr
    refine ⟨fun h => ?_, fun h => ?_, fun h => ?_, fun h => ?_, fun h => ?_, fun h => ?_⟩
    · simp [cardJob, hattr h]
    · simp [cardJob, selectionText, hfind _ (Ne.symm h)]
    · simp [cardJob, selectionText, hfind _ (Ne.symm h)]
    · simp [cardJob, selectionText, hfind _ (Ne.symm h)]
    · simp [cardJob, selectionText, hfind _ (Ne.symm h)]
    · simp [cardJob, selectionText, hfind _ (Ne.symm h)]
  · intro cards web searchWord start
    refine ⟨eachCard_eq_map cards, ?_⟩
    unfold getJobs fetchDocument checkResp
    cases web (baseURL ++ "?q=" ++ searchWord ++ "&limit=50&start=" ++ toString start) with
    | none => simp [Outcome.bind]
    | some res =>
      cases hb : res.body <;> by_cases hs : res.statusCode = 200 <;>
        simp [Outcome.bind, hb, hs]
  · intro web searchWord start doc hweb
    have hget := getJobs_of_page web searchWord start doc hweb
    refine ⟨hget, fun jobs hjobs => ?_⟩
    rw [hget] at hjobs
    cases hjobs
    refine ⟨List.length_map _ _, fun i h => ?_⟩
    simp [h]
  · intro web searchWord start jobs hjobs
    exact getJobs_ok_inv web searchWord start jobs hjobs

/-- Witness for C8 at a card without a salary element, served as the only card
of a results page: the salary is empty, the other fields are populated, and
`getJobs` returns that one record. -/
theorem cardJob_fields_witness :
    (cardJob cardNoSalary).salary = "" ∧
      cardJob cardNoSalary
        = { id := "abc123", title := "Go Developer", company := "ACME",
            location := "Seoul", summary := "Build things", salary := "" } ∧
      getJobs pageNoSalary "go" 50 = Outcome.ok [cardJob cardNoSalary] :=
  ⟨(cardJob_fields cardNoSalary).2.2.2.2.2.2.1 (by decide), by decide,
    ((cardJob_fields cardNoSalary).2.2.2.2.2.2.2.2.2.2.1 pageNoSalary "go" 50
      { indicators := [], cards := [cardNoSalary] } rfl).1⟩

/-! ## Claim C9: the merge of the page results -/

theorem stepTask_twice (page : List Job) (i : Nat) (p : Pool)
    (hi : p.tasks[i]? = some Task.ready) :
    stepTask page i (stepTask page i p)
      = { jobs := p.jobs ++ page, tasks := p.tasks.set i Task.done } := by
  have hlen : i < p.tasks.length := by
    rcases Nat.lt_or_ge i p.tasks.length with h | h
    · exact h
    · rw [List.getElem?_eq_none h] at hi
      cases hi
  have h1 : stepTask page i p = { p with tasks := p.tasks.set i (Task.loaded p.jobs) } := by
    simp [stepTask, hi]
  rw [h1]
  simp [stepTask, List.getElem?_set_self hlen]

theorem serial_run (pages : List (List Job)) (order : List Nat) :
    ∀ p : Pool, order.Nodup → (∀ i ∈ order, p.tasks[i]? = some Task.ready) →
      ((order.flatMap fun i => [i, i]).foldl
          (fun q i => stepTask (pages.getD i []) i q) p).jobs
        = p.jobs ++ (order.map fun i => pages.getD i []).flatten := by
  induction order with
  | nil => intro p _ _; simp
  | cons i order ih =>
    intro p hnd hready
    have hi := hready i (List.mem_cons_self i order)
    obtain ⟨hnotin, hnd2⟩ := List.nodup_cons.mp hnd
    rw [List.flatMap_cons, List.foldl_append]
    simp only [List.foldl_cons, List.foldl_nil]
    rw [stepTask_twice _ i p hi, ih _ hnd2]
    · simp
    · intro j hj
      have hne : i ≠ j := fun h => hnotin (h ▸ hj)
      simp only [List.getElem?_set_ne hne]
      exact hready j (List.mem_cons_of_mem i hj)

/-- When every goroutine reads and stores without another one in between,
whatever the order of the goroutines, the merge is a permutation of the page
results: nothing is lost or duplicated. -/
theorem serial_merge_perm (pages : List (List Job)) (order : List Nat)
    (horder : List.Perm order (List.range pages.length)) :
    List.Perm (runSchedule pages (order.flatMap fun i => [i, i])).jobs pages.flatten := by
  have hnd : order.Nodup := horder.nodup_iff.mpr (List.nodup_range _)
  have hready : ∀ i ∈ order, (pages.map fun _ => Task.ready)[i]? = some Task.ready := by
    intro i hi
    have : i < pages.length := List.mem_range.mp (horder.mem_iff.mp hi)
    simp [this]
  have hrun := serial_run pages order
    { jobs := [], tasks := pages.map fun _ => Task.ready } hnd hready
  unfold runSchedule
  rw [hrun, List.nil_append]
  have hpages : ((List.range pages.length).map fun i => pages.getD i []) = pages := by
    apply List.ext_getElem
    · simp
    · intro n h1 h2
      simp at h1
      simp [h1]
  have := (horder.map (fun i => pages.getD i [])).flatten
  rwa [hpages] at this

/-- Claim C9, the code at a failing input: two pages of one record each.  When
each goroutine reads and stores in one go the merge holds both records, in
either order; when both goroutines read the shared `jobs` before either
stores, the later store overwrites the earlier one and a record is lost, all
goroutines being done. -/
theorem merge_loses_records :
    (runSchedule [[recordA], [recordB]] [0, 0, 1, 1]).jobs = [recordA, recordB] ∧
      (runSchedule [[recordA], [recordB]] [1, 1, 0, 0]).jobs = [recordB, recordA] ∧
      (runSchedule [[recordA], [recordB]] [0, 1, 0, 1]).jobs = [recordB] ∧
      allDone (runSchedule [[recordA], [recordB]] [0, 1, 0, 1]) = true ∧
      (runSchedule [[recordA], [recordB]] [0, 1, 0, 1]).jobs.length
        ≠ ([[recordA], [recordB]].map List.length).sum := by
  decide

end GoJobs
